import Mathlib

/-!
Verification of the join/supremum engine of `JoinLink.cc`
(opencog/atoms/container/JoinLink.cc).

The embedding models atoms as finite ordered trees over a closed set of
atom-type kinds, and the atomspace as an explicit list of atoms (the
store).  The incoming set of an atom is computed from the store.  The
grounding oracle (the MeetLink search, out of scope per the spec) is a
parameter: its answer, the handle sequence a LinkValue would carry, is
passed to `principals` as an `Except` value so that oracle errors
propagate.  Upward walks in the C++ source recurse through incoming
sets and terminate because containment is acyclic; here they take
explicit fuel, with `store.length + 1` proved sufficient.
-/

/-- Atom-type kinds needed by JoinLink.cc.  The type hierarchy itself
lives outside the translated source; following the classification in the
spec (replacement directives, presence clauses, evaluatable clauses, and
the three type-directive shapes: type node, type link, type-output
link), the kinds are modelled as a closed enumeration, with the three
concrete join kinds below the abstract one. -/
inductive AKind where
  | conceptNode
  | variableNode
  | typeNode
  | otherNode
  | memberLink
  | listLink
  | presentLink
  | evalLink
  | replacementLink
  | typeLink
  | typeOutputLink
  | joinLink
  | minimalJoinLink
  | maximalJoinLink
  | otherLink
  deriving DecidableEq, Repr

/-- Modelled from the spec: nameserver().isA(t, JOIN_LINK).  The
abstract JoinLink type has the two concrete join kinds below it. -/
def isJoinKind (k : AKind) : Bool :=
  k == .joinLink || k == .minimalJoinLink || k == .maximalJoinLink

mutual
/-- An atom: a node (kind and name) or a link (kind and ordered
outgoing sequence).  Atoms are immutable trees, so containment is
acyclic by construction, as the data model of the spec demands. -/
inductive Atom where
  | node (k : AKind) (name : Nat)
  | link (k : AKind) (out : AtomSeq)

/-- The outgoing sequence of a link. -/
inductive AtomSeq where
  | nil
  | cons (a : Atom) (rest : AtomSeq)
end

instance : Inhabited Atom := ⟨.node .otherNode 0⟩

mutual
def Atom.beq : Atom → Atom → Bool
  | .node k n, .node k2 n2 => k == k2 && n == n2
  | .link k o, .link k2 o2 => k == k2 && AtomSeq.beq o o2
  | .node _ _, .link _ _ => false
  | .link _ _, .node _ _ => false

def AtomSeq.beq : AtomSeq → AtomSeq → Bool
  | .nil, .nil => true
  | .cons a r, .cons a2 r2 => Atom.beq a a2 && AtomSeq.beq r r2
  | .nil, .cons _ _ => false
  | .cons _ _, .nil => false
end

mutual
theorem Atom.beq_iff : ∀ a b : Atom, (Atom.beq a b = true) ↔ a = b
  | .node _ _, .node _ _ => by simp [Atom.beq]
  | .node _ _, .link _ _ => by simp [Atom.beq]
  | .link _ _, .node _ _ => by simp [Atom.beq]
  | .link k o, .link k2 o2 => by simp [Atom.beq, AtomSeq.beqSeq_iff o o2]

theorem AtomSeq.beqSeq_iff : ∀ s t : AtomSeq, (AtomSeq.beq s t = true) ↔ s = t
  | .nil, .nil => by simp [AtomSeq.beq]
  | .nil, .cons _ _ => by simp [AtomSeq.beq]
  | .cons _ _, .nil => by simp [AtomSeq.beq]
  | .cons a r, .cons a2 r2 => by
      simp [AtomSeq.beq, Atom.beq_iff a a2, AtomSeq.beqSeq_iff r r2]
end

instance : DecidableEq Atom := fun a b =>
  decidable_of_iff (Atom.beq a b = true) (Atom.beq_iff a b)

instance : DecidableEq AtomSeq := fun s t =>
  decidable_of_iff (AtomSeq.beq s t = true) (AtomSeq.beqSeq_iff s t)

/-- The type of an atom (Atom::get_type). -/
def Atom.kind : Atom → AKind
  | .node k _ => k
  | .link k _ => k

def AtomSeq.toList : AtomSeq → List Atom
  | .nil => []
  | .cons a r => a :: r.toList

def AtomSeq.ofList : List Atom → AtomSeq
  | [] => .nil
  | a :: r => .cons a (AtomSeq.ofList r)

/-- The outgoing set of an atom (Atom::getOutgoingSet); empty for nodes. -/
def Atom.out : Atom → List Atom
  | .node _ _ => []
  | .link _ o => o.toList

/-- Atom::is_node. -/
def Atom.isNode : Atom → Bool
  | .node _ _ => true
  | .link _ _ => false

/-- Atom::is_link. -/
def Atom.isLink : Atom → Bool
  | .node _ _ => false
  | .link _ _ => true

/-- Convenience constructor: a link from a plain list of children. -/
def mkLink (k : AKind) (children : List Atom) : Atom :=
  .link k (AtomSeq.ofList children)

mutual
/-- Structural size of an atom, used for the acyclicity argument: a
link is strictly larger than each of its children. -/
def Atom.asize : Atom → Nat
  | .node _ _ => 1
  | .link _ o => 1 + AtomSeq.asize o

def AtomSeq.asize : AtomSeq → Nat
  | .nil => 0
  | .cons a r => Atom.asize a + AtomSeq.asize r
end

theorem AtomSeq.asize_lt_of_mem : ∀ (s : AtomSeq), ∀ a ∈ s.toList, Atom.asize a ≤ AtomSeq.asize s
  | .nil => by simp [AtomSeq.toList]
  | .cons b r => by
      intro a ha
      simp [AtomSeq.toList] at ha
      rcases ha with rfl | ha
      · simp [AtomSeq.asize]
      · have := AtomSeq.asize_lt_of_mem r a ha
        simp [AtomSeq.asize]
        omega

/-- A direct child of an atom is strictly smaller. -/
theorem Atom.asize_lt_of_mem_out (a h : Atom) (hmem : h ∈ a.out) :
    Atom.asize h < Atom.asize a := by
  cases a with
  | node k n => simp [Atom.out] at hmem
  | link k o =>
      have := AtomSeq.asize_lt_of_mem o h hmem
      simp [Atom.asize]
      omega

/-- The incoming set of `h`: all atoms of the store that list `h` as a
direct child (Atom::getIncomingSet, maintained by the store). -/
def incoming (store : List Atom) (h : Atom) : List Atom :=
  store.filter (fun a => decide (h ∈ a.out))

theorem mem_incoming {store : List Atom} {h a : Atom} :
    a ∈ incoming store h ↔ a ∈ store ∧ h ∈ a.out := by
  simp [incoming]

theorem asize_lt_of_mem_incoming {store : List Atom} {h a : Atom}
    (ha : a ∈ incoming store h) : Atom.asize h < Atom.asize a :=
  Atom.asize_lt_of_mem_out a h (mem_incoming.mp ha).2

/-- Atoms of the store strictly above `h` in size; the length of this
list bounds the remaining depth of any upward walk from `h`. -/
def depthBound (store : List Atom) (h : Atom) : Nat :=
  (store.filter (fun a => decide (Atom.asize h < Atom.asize a))).length + 1

theorem length_filter_le_of_imp {α : Type} (l : List α) (p q : α → Bool)
    (himp : ∀ a ∈ l, p a = true → q a = true) :
    (l.filter p).length ≤ (l.filter q).length := by
  induction l with
  | nil => simp
  | cons b rest ih =>
      have hrest : (rest.filter p).length ≤ (rest.filter q).length :=
        ih (fun a ha hp => himp a (List.mem_cons_of_mem _ ha) hp)
      by_cases hpb : p b = true
      · have hqb : q b = true := himp b (List.mem_cons_self _ _) hpb
        simp [List.filter_cons, hpb, hqb]
        omega
      · simp only [Bool.not_eq_true] at hpb
        by_cases hqb : q b = true
        · simp [List.filter_cons, hpb, hqb]
          omega
        · simp only [Bool.not_eq_true] at hqb
          simp [List.filter_cons, hpb, hqb]
          omega

theorem length_filter_lt_of_imp {α : Type} (l : List α) (p q : α → Bool) (x : α)
    (hx : x ∈ l) (hqx : q x = true) (hpx : p x = false)
    (himp : ∀ a ∈ l, p a = true → q a = true) :
    (l.filter p).length < (l.filter q).length := by
  induction l with
  | nil => simp at hx
  | cons b rest ih =>
      have himprest : ∀ a ∈ rest, p a = true → q a = true :=
        fun a ha hp => himp a (List.mem_cons_of_mem _ ha) hp
      rcases List.mem_cons.mp hx with rfl | hx
      · have hrest : (rest.filter p).length ≤ (rest.filter q).length :=
          length_filter_le_of_imp rest p q himprest
        simp [List.filter_cons, hpx, hqx]
        omega
      · have hrest : (rest.filter p).length < (rest.filter q).length :=
          ih hx himprest
        by_cases hpb : p b = true
        · have hqb : q b = true := himp b (List.mem_cons_self _ _) hpb
          simp [List.filter_cons, hpb, hqb]
          omega
        · simp only [Bool.not_eq_true] at hpb
          by_cases hqb : q b = true
          · simp [List.filter_cons, hpb, hqb]
            omega
          · simp only [Bool.not_eq_true] at hqb
            simp [List.filter_cons, hpb, hqb]
            omega

theorem depthBound_le (store : List Atom) (h : Atom) :
    depthBound store h ≤ store.length + 1 := by
  have := List.length_filter_le (fun a => decide (Atom.asize h < Atom.asize a)) store
  simp [depthBound]
  omega


/-! ## Handle sets

The C++ engine works with std::set of handles.  A handle set is
modelled as a duplicate-free list in insertion order, with the std::set
operations spelled out, so that every pipeline computation reduces
inside the kernel. -/

/-- HandleSet: a set of atoms, as the list of its members. -/
abbrev HandleSet := List Atom

/-- Membership test on a handle set (std::set::find). -/
def hsMem (a : Atom) : HandleSet → Bool
  | [] => false
  | b :: rest => Atom.beq b a || hsMem a rest

theorem hsMem_iff_mem (a : Atom) : ∀ (s : HandleSet), hsMem a s = true ↔ a ∈ s
  | [] => by simp [hsMem]
  | b :: rest => by
      rw [hsMem, Bool.or_eq_true, Atom.beq_iff, hsMem_iff_mem a rest, List.mem_cons]
      constructor
      · rintro (rfl | h)
        · exact Or.inl rfl
        · exact Or.inr h
      · rintro (rfl | h)
        · exact Or.inl rfl
        · exact Or.inr h

/-- std::set::insert — a no-op when the atom is already present. -/
def hsInsert (s : HandleSet) (a : Atom) : HandleSet :=
  if hsMem a s then s else s ++ [a]

theorem mem_hsInsert (x a : Atom) (s : HandleSet) :
    x ∈ hsInsert s a ↔ x ∈ s ∨ x = a := by
  unfold hsInsert
  by_cases h : hsMem a s = true
  · simp only [h, if_true]
    constructor
    · exact Or.inl
    · rintro (hx | rfl)
      · exact hx
      · exact (hsMem_iff_mem x s).mp h
  · simp only [h, Bool.false_eq_true, if_false, List.mem_append, List.mem_singleton]

/-- std::set_difference: the members of `s` not in `t`. -/
def hsDiff (s t : HandleSet) : HandleSet :=
  s.filter (fun a => !hsMem a t)

theorem mem_hsDiff (x : Atom) (s t : HandleSet) :
    x ∈ hsDiff s t ↔ x ∈ s ∧ x ∉ t := by
  rw [hsDiff, List.mem_filter]
  have := hsMem_iff_mem x t
  constructor
  · rintro ⟨hs, hb⟩
    refine ⟨hs, fun hmem => ?_⟩
    rw [Bool.not_eq_true', ← Bool.not_eq_true] at hb
    exact hb (this.mpr hmem)
  · rintro ⟨hs, hnot⟩
    refine ⟨hs, ?_⟩
    rw [Bool.not_eq_true', ← Bool.not_eq_true]
    exact fun hm => hnot (this.mp hm)

/-- The members of `s` satisfying `p` (a selection loop over the set). -/
def hsFilter (p : Atom → Bool) (s : HandleSet) : HandleSet :=
  s.filter p

theorem mem_hsFilter (x : Atom) (p : Atom → Bool) (s : HandleSet) :
    x ∈ hsFilter p s ↔ x ∈ s ∧ p x = true := by
  rw [hsFilter, List.mem_filter]

/-! ## The upward walk of principal_filter (JoinLink.cc lines 295-308) -/

/-- The exclusion test at the top of JoinLink::principal_filter: type
specifications and other join containers are ignored.  The source
checks isA(TYPE_OUTPUT_LINK) and isA(JOIN_LINK) only; plain type nodes
and type links are not excluded there. -/
def pfExcluded (h : Atom) : Bool :=
  h.kind == .typeOutputLink || isJoinKind h.kind

/-- JoinLink::principal_filter, with explicit fuel standing in for the
recursion through incoming sets (terminating by acyclicity): insert `h`
and walk into every atom of the incoming set, skipping excluded atoms
and everything only reachable through them. -/
def principal_filter_rec (store : List Atom) : Nat → Atom → HandleSet → HandleSet
  | 0, _, containers => containers
  | fuel+1, h, containers =>
      if pfExcluded h then containers
      else
        (incoming store h).foldl
          (fun acc ih => principal_filter_rec store fuel ih acc)
          (hsInsert containers h)

/-- JoinLink::principal_filter at its canonical (sufficient) fuel. -/
def principal_filter (store : List Atom) (h : Atom) (containers : HandleSet) : HandleSet :=
  principal_filter_rec store (store.length + 1) h containers

/-- Upward reachability along incoming sets with the exclusion rule of
principal_filter: the atoms its walk actually visits. -/
inductive UpReach (store : List Atom) (p : Atom) : Atom → Prop where
  | refl : pfExcluded p = false → UpReach store p p
  | step {a b : Atom} : UpReach store p a → b ∈ incoming store a →
      pfExcluded b = false → UpReach store p b

theorem UpReach.not_excluded {store : List Atom} {p x : Atom}
    (h : UpReach store p x) : pfExcluded p = false := by
  induction h with
  | refl hp => exact hp
  | step _ _ _ ih => exact ih

theorem UpReach.not_excluded_target {store : List Atom} {p x : Atom}
    (h : UpReach store p x) : pfExcluded x = false := by
  cases h with
  | refl hp => exact hp
  | step _ _ hb => exact hb

theorem UpReach.trans {store : List Atom} {p q x : Atom}
    (hpq : UpReach store p q) (hqx : UpReach store q x) : UpReach store p x := by
  induction hqx with
  | refl _ => exact hpq
  | step _ hb hex ih => exact UpReach.step ih hb hex

/-- Decomposition of an upward derivation at its first step. -/
theorem UpReach.head_cases {store : List Atom} {p x : Atom}
    (h : UpReach store p x) :
    x = p ∨ ∃ a ∈ incoming store p, UpReach store a x := by
  induction h with
  | refl _ => exact Or.inl rfl
  | step hpa hb hex ih =>
      rename_i a b
      rcases ih with rfl | ⟨c, hc, hcx⟩
      · exact Or.inr ⟨b, hb, UpReach.refl hex⟩
      · exact Or.inr ⟨c, hc, UpReach.step hcx hb hex⟩

theorem depthBound_decreasing {store : List Atom} {h ih : Atom}
    (hmem : ih ∈ incoming store h) :
    depthBound store ih < depthBound store h := by
  have hsize : Atom.asize h < Atom.asize ih := asize_lt_of_mem_incoming hmem
  have hstore : ih ∈ store := (mem_incoming.mp hmem).1
  have := length_filter_lt_of_imp store
      (fun a => decide (Atom.asize ih < Atom.asize a))
      (fun a => decide (Atom.asize h < Atom.asize a))
      ih hstore (by simp [hsize]) (by simp)
      (fun a _ hp => by
        simp at hp ⊢
        omega)
  simp [depthBound]
  omega

/-- Membership after folding the walk over a list of starting points. -/
theorem mem_foldl_pf_rec (store : List Atom) (fuel : Nat)
    (IH : ∀ a acc x, depthBound store a ≤ fuel →
        (x ∈ principal_filter_rec store fuel a acc ↔ x ∈ acc ∨ UpReach store a x)) :
    ∀ (l : List Atom) (acc : HandleSet) (x : Atom),
      (∀ a ∈ l, depthBound store a ≤ fuel) →
      (x ∈ l.foldl (fun acc ih => principal_filter_rec store fuel ih acc) acc ↔
        x ∈ acc ∨ ∃ a ∈ l, UpReach store a x) := by
  intro l
  induction l with
  | nil => simp
  | cons b rest ihl =>
      intro acc x hsuff
      have hb : depthBound store b ≤ fuel := hsuff b (List.mem_cons_self _ _)
      have hrest : ∀ a ∈ rest, depthBound store a ≤ fuel :=
        fun a ha => hsuff a (List.mem_cons_of_mem _ ha)
      simp only [List.foldl_cons]
      rw [ihl _ _ hrest, IH b acc x hb]
      constructor
      · rintro ((hx | hx) | ⟨a, ha, hx⟩)
        · exact Or.inl hx
        · exact Or.inr ⟨b, List.mem_cons_self _ _, hx⟩
        · exact Or.inr ⟨a, List.mem_cons_of_mem _ ha, hx⟩
      · rintro (hx | ⟨a, ha, hx⟩)
        · exact Or.inl (Or.inl hx)
        · rcases List.mem_cons.mp ha with rfl | ha
          · exact Or.inl (Or.inr hx)
          · exact Or.inr ⟨a, ha, hx⟩

/-- Characterization of the principal_filter walk: with sufficient
fuel it adds to the accumulator exactly the upward-reachable atoms. -/
theorem mem_principal_filter_rec (store : List Atom) :
    ∀ (fuel : Nat) (h : Atom) (acc : HandleSet),
      depthBound store h ≤ fuel →
      ∀ x, x ∈ principal_filter_rec store fuel h acc ↔ x ∈ acc ∨ UpReach store h x := by
  intro fuel
  induction fuel with
  | zero =>
      intro h acc hd x
      simp [depthBound] at hd
  | succ fuel ihf =>
      intro h acc hd x
      simp only [principal_filter_rec]
      by_cases hex : pfExcluded h = true
      · simp only [hex, if_true]
        constructor
        · exact Or.inl
        · rintro (hx | hx)
          · exact hx
          · have := hx.not_excluded
            rw [hex] at this
            cases this
      · simp only [Bool.not_eq_true] at hex
        simp only [hex, Bool.false_eq_true, if_false]
        have hsuff : ∀ a ∈ incoming store h, depthBound store a ≤ fuel := by
          intro a ha
          have := depthBound_decreasing ha
          omega
        rw [mem_foldl_pf_rec store fuel (fun a acc x hda => ihf a acc hda x)
              (incoming store h) (hsInsert acc h) x hsuff]
        rw [mem_hsInsert]
        constructor
        · rintro ((hx | rfl) | ⟨a, ha, hx⟩)
          · exact Or.inl hx
          · exact Or.inr (UpReach.refl hex)
          · exact Or.inr (UpReach.trans (UpReach.step (UpReach.refl hex) ha hx.not_excluded) hx)
        · rintro (hx | hx)
          · exact Or.inl (Or.inl hx)
          · rcases hx.head_cases with rfl | ⟨a, ha, hax⟩
            · exact Or.inl (Or.inr rfl)
            · exact Or.inr ⟨a, ha, hax⟩

/-- Membership in principal_filter: the accumulator plus everything the
walk reaches upward from `h`. -/
theorem mem_principal_filter (store : List Atom) (h : Atom) (acc : HandleSet) (x : Atom) :
    x ∈ principal_filter store h acc ↔ x ∈ acc ∨ UpReach store h x :=
  mem_principal_filter_rec store (store.length + 1) h acc (depthBound_le store h) x

/-! ## Externals consumed as library functions (outside src/), modelled
from the interfaces the spec gives them. -/

mutual
/-- Modelled from the spec: free-variable extraction
(FreeVariables::find_variables, consumed as a library function): a
clause is constant exactly when no variable node occurs in it.  Nested
scope subtleties are not needed by the clauses treated here. -/
def hasVars : Atom → Bool
  | .node k _ => k == .variableNode
  | .link _ o => seqHasVars o

def seqHasVars : AtomSeq → Bool
  | .nil => false
  | .cons a r => hasVars a || seqHasVars r
end

mutual
/-- Modelled from the spec: the recursive-descent occurrence test
(is_atom_in_tree of FindUtils, consumed as a library function): the
needle equals the tree or occurs in some child. -/
def inTree (a : Atom) : Atom → Bool
  | .node k n => Atom.beq (.node k n) a
  | .link k o => Atom.beq (.link k o) a || inSeq a o

def inSeq (a : Atom) : AtomSeq → Bool
  | .nil => false
  | .cons t rest => inTree a t || inSeq a rest
end

/-- Modelled from the spec: any_atom_in_tree of FindUtils — some atom
of the set occurs in the substructure of the tree. -/
def any_atom_in_tree (tree : Atom) (s : HandleSet) : Bool :=
  s.any (fun a => inTree a tree)

/-- Modelled from the spec: the type-membership check of a top-type
directive (value_is_type of TypeUtils, consumed as a library function):
a type node names an atom kind and accepts exactly the atoms of that
kind. -/
def value_is_type (toty h : Atom) : Bool :=
  match toty with
  | .node .typeNode i => h.kind.toCtorIdx == i
  | _ => false

mutual
/-- Modelled from the spec: the substitution utility
(FreeVariables::replace_nocheck, consumed as a library function):
rewrite every occurrence of a key of the map to its mapped value.  The
scope/quote boundary handling of the utility is not modelled; the terms
substituted here contain no nested scopes. -/
def substTerm (m : List (Atom × Atom)) : Atom → Atom
  | .node k n =>
      match m.find? (fun pr => Atom.beq pr.1 (.node k n)) with
      | some pr => pr.2
      | none => .node k n
  | .link k o =>
      match m.find? (fun pr => Atom.beq pr.1 (.link k o)) with
      | some pr => pr.2
      | none => .link k (substSeq m o)

def substSeq (m : List (Atom × Atom)) : AtomSeq → AtomSeq
  | .nil => .nil
  | .cons a r => .cons (substTerm m a) (substSeq m r)
end

mutual
theorem substTerm_nil : ∀ a : Atom, substTerm [] a = a
  | .node _ _ => by simp [substTerm, List.find?]
  | .link k o => by simp [substTerm, List.find?, substSeq_nil o]

theorem substSeq_nil : ∀ s : AtomSeq, substSeq [] s = s
  | .nil => by simp [substSeq]
  | .cons a r => by simp [substSeq, substTerm_nil a, substSeq_nil r]
end

/-! ## The JoinLink term and its construction (JoinLink.cc lines 37-161) -/

/-- The exceptions JoinLink.cc raises, plus the propagated error of the
grounding oracle: InvalidParamException from init, SyntaxException from
validate and fixup_replacements. -/
inductive Exc where
  | invalidParam
  | syntaxEx
  | oracleErr
  deriving DecidableEq, Repr

def exceptDecEq {e a : Type} [DecidableEq e] [DecidableEq a] :
    DecidableEq (Except e a) := fun x y =>
  match x, y with
  | .error u, .error v =>
      match decEq u v with
      | isTrue h => isTrue (congrArg Except.error h)
      | isFalse h => isFalse (fun c => h (Except.error.inj c))
  | .ok u, .ok v =>
      match decEq u v with
      | isTrue h => isTrue (congrArg Except.ok h)
      | isFalse h => isFalse (fun c => h (Except.ok.inj c))
  | .error _, .ok _ => isFalse (fun c => Except.noConfusion c)
  | .ok _, .error _ => isFalse (fun c => Except.noConfusion c)

/-- Equality of fallible results decided by plain constructor matching,
so that closed evaluations of the pipeline reduce inside the kernel. -/
instance {e a : Type} [DecidableEq e] [DecidableEq a] : DecidableEq (Except e a) :=
  exceptDecEq

/-- A JoinLink term: its concrete type, the declared variables (parsed
from the first outgoing atom by the external Variables machinery), and
the remaining outgoing atoms, the body clauses. -/
structure JoinLink where
  jtype : AKind
  varseq : List Atom
  clauses : List Atom
  deriving DecidableEq

/-- Number of declared variables (JoinLink::_vsize). -/
def JoinLink.vsize (jl : JoinLink) : Nat := jl.varseq.length

/-- The clause shapes JoinLink::validate lets through: replacement
links, presence clauses, evaluatable clauses (the virtual
is_evaluatable test and the EVALUATABLE_LINK type test are modelled
together by the evaluatable kind), and the three type-directive
shapes. -/
def supportedClause (c : Atom) : Bool :=
  c.kind == .replacementLink || c.kind == .presentLink || c.kind == .evalLink ||
    c.kind == .typeNode || c.kind == .typeLink || c.kind == .typeOutputLink

/-- JoinLink::validate (lines 64-86): reject any clause of an
unsupported shape with a SyntaxException.  The source throws at the
first offender; only whether some clause offends is observable. -/
def JoinLink.validate (jl : JoinLink) : Except Exc Unit :=
  if jl.clauses.all supportedClause then .ok () else .error .syntaxEx

/-- JoinLink::init (lines 37-53): the type must be a join type, the
abstract JoinLink type itself is private and cannot be instantiated,
and the body must validate. -/
def JoinLink.init (jl : JoinLink) : Except Exc Unit :=
  if !isJoinKind jl.jtype then .error .invalidParam
  else if jl.jtype == .joinLink then .error .invalidParam
  else jl.validate

/-- The clauses handled at the container level and hence skipped by
setup_meet (lines 100-105): replacement directives and the three
type-directive shapes. -/
def containerLevelClause (c : Atom) : Bool :=
  c.kind == .replacementLink || c.kind == .typeNode || c.kind == .typeLink ||
    c.kind == .typeOutputLink

/-- JoinLink::_const_terms, built by setup_meet (lines 107-115): the
meet clauses in which no variable occurs, collected into a handle
set. -/
def JoinLink.const_terms (jl : JoinLink) : HandleSet :=
  (jl.clauses.filter (fun c => !containerLevelClause c && !hasVars c)).foldl hsInsert []

/-- A clause of one of the three type-directive shapes (the test of
setup_top_types, lines 153-156). -/
def isTopTypeClause (c : Atom) : Bool :=
  c.kind == .typeNode || c.kind == .typeLink || c.kind == .typeOutputLink

/-- JoinLink::_top_types, built by setup_top_types (lines 146-161): the
type-directive clauses, in body order. -/
def JoinLink.top_types (jl : JoinLink) : List Atom :=
  jl.clauses.filter isTopTypeClause

/-! ## The per-execution traversal state (struct Traverse) -/

/-- The Traverse state: the replacement map pairing grounded atoms with
the variables they ground (keys unique, first insertion wins, as for
std::map::insert), and the per-variable join map. -/
structure Traverse where
  replace_map : List (Atom × Atom)
  join_map : List HandleSet
  deriving DecidableEq

/-- std::map::insert — a no-op when the key is already present. -/
def mapInsert (m : List (Atom × Atom)) (k v : Atom) : List (Atom × Atom) :=
  if m.any (fun pr => pr.1 == k) then m else m ++ [(k, v)]

/-- The value overwrite loop of fixup_replacements (lines 182-187):
every entry whose variable equals the replacement source is redirected
to the replacement target. -/
def redirect (m : List (Atom × Atom)) (src tgt : Atom) : List (Atom × Atom) :=
  m.map (fun pr => if pr.2 == src then (pr.1, tgt) else pr)

/-! ## The pipeline (JoinLink.cc lines 240-510) -/

/-- JoinLink::principals (lines 240-286).  With no variables the
constant terms are returned and no search runs.  Otherwise the oracle
answer — the handle sequence of the executed MeetLink — is consumed:
with one variable a flat list of groundings, inserted into the
principal set and the replacement map, with the complete principal set
pushed as the single join-map entry; with several variables a list of
list-links whose members are indexed per variable. -/
def principals (jl : JoinLink) (oracle : Except Exc (List Atom)) (trav : Traverse) :
    Except Exc (HandleSet × Traverse) :=
  if jl.vsize = 0 then .ok (jl.const_terms, trav)
  else
    match oracle with
    | .error e => .error e
    | .ok hseq =>
      if jl.vsize = 1 then
        let var := jl.varseq.getD 0 default
        let princes := hseq.foldl hsInsert jl.const_terms
        let rmap := hseq.foldl (fun m hst => mapInsert m hst var) trav.replace_map
        .ok (princes, ⟨rmap, trav.join_map ++ [princes]⟩)
      else
        let start : HandleSet × Traverse :=
          (jl.const_terms, ⟨trav.replace_map, List.replicate jl.vsize []⟩)
        let step := fun (st : HandleSet × Traverse) (hst : Atom) =>
          (List.range jl.vsize).foldl
            (fun (st : HandleSet × Traverse) i =>
              let g := hst.out.getD i default
              (hsInsert st.1 g,
               ⟨mapInsert st.2.replace_map g (jl.varseq.getD i default),
                st.2.join_map.set i (hsInsert (st.2.join_map.getD i []) g)⟩))
            st
        .ok (hseq.foldl step start)

/-- JoinLink::upper_set (lines 315-355): the principal filters of all
principal elements, accumulated into one shared handle set; with more
than one variable, remove the unjoined elements — those missing, for
some variable index, every atom of that join-map entry from their
substructure. -/
def upper_set (jl : JoinLink) (store : List Atom) (oracle : Except Exc (List Atom))
    (trav : Traverse) : Except Exc (HandleSet × Traverse) :=
  match principals jl oracle trav with
  | .error e => .error e
  | .ok (princes, trav) =>
    let containers := princes.foldl (fun acc pr => principal_filter store pr acc) []
    if jl.vsize = 1 then .ok (containers, trav)
    else
      let unjoined := hsFilter
        (fun h =>
          (List.range jl.vsize).any
            (fun i => !any_atom_in_tree h (trav.join_map.getD i [])))
        containers
      .ok (hsDiff containers unjoined, trav)

/-- JoinLink::supremum (lines 377-403): drop the non-minimal elements
of the upper set — the links having some direct child in the upper
set. -/
def supremum (jl : JoinLink) (store : List Atom) (oracle : Except Exc (List Atom))
    (trav : Traverse) : Except Exc (HandleSet × Traverse) :=
  match upper_set jl store oracle trav with
  | .error e => .error e
  | .ok (upset, trav) =>
    let non_minimal :=
      hsFilter (fun h => h.isLink && h.out.any (fun ho => hsMem ho upset)) upset
    .ok (hsDiff upset non_minimal, trav)

/-- JoinLink::find_top (lines 410-425), with explicit fuel for the
upward recursion: walk upward from `h`, skipping other join
containers, and insert the atoms whose incoming set is empty. -/
def find_top_rec (store : List Atom) : Nat → HandleSet → Atom → HandleSet
  | 0, containers, _ => containers
  | fuel+1, containers, h =>
      if isJoinKind h.kind then containers
      else
        let is := incoming store h
        if is.isEmpty then hsInsert containers h
        else is.foldl (find_top_rec store fuel) containers

/-- JoinLink::find_top at its canonical (sufficient) fuel. -/
def find_top (store : List Atom) (containers : HandleSet) (h : Atom) : HandleSet :=
  find_top_rec store (store.length + 1) containers h

/-- JoinLink::constrain (lines 429-449): reject every container
failing the type-membership check of some top-type directive. -/
def constrain (jl : JoinLink) (containers : HandleSet) : HandleSet :=
  let rejects :=
    hsFilter (fun h => jl.top_types.any (fun toty => !value_is_type toty h)) containers
  hsDiff containers rejects

/-- JoinLink::fixup_replacements (lines 169-194): walk the body
clauses; each replacement link must have exactly two arguments, and
some entry of the replacement map must currently resolve to its first
argument, else a SyntaxException; every resolving entry is redirected
to the second argument. -/
def fixup_replacements (clauses : List Atom) (trav : Traverse) : Except Exc Traverse :=
  match clauses with
  | [] => .ok trav
  | c :: rest =>
    if c.kind == .replacementLink then
      match c.out with
      | [src, tgt] =>
        if trav.replace_map.any (fun pr => pr.2 == src) then
          fixup_replacements rest ⟨redirect trav.replace_map src tgt, trav.join_map⟩
        else .error .syntaxEx
      | _ => .error .syntaxEx
    else fixup_replacements rest trav

/-- JoinLink::replace (lines 479-492): substitute each container
through the replacement map, collecting the results as a set. -/
def replace (containers : HandleSet) (trav : Traverse) : HandleSet :=
  containers.foldl (fun acc top => hsInsert acc (substTerm trav.replace_map top)) []

/-- JoinLink::container (lines 453-472) up to, and including, the
replacement fixup: the supremum, the ascent to the tops in maximal
mode, and the top-type constraints.  The final substitution is kept
separate so that the pre-substitution containers are addressable. -/
def container_pre (jl : JoinLink) (store : List Atom) (oracle : Except Exc (List Atom)) :
    Except Exc (HandleSet × Traverse) :=
  match supremum jl store oracle ⟨[], []⟩ with
  | .error e => .error e
  | .ok (sup, trav) =>
    let containers :=
      if jl.jtype == .maximalJoinLink then sup.foldl (find_top store) []
      else sup
    let containers :=
      if 0 < jl.top_types.length then constrain jl containers else containers
    match fixup_replacements jl.clauses trav with
    | .error e => .error e
    | .ok trav => .ok (containers, trav)

/-- JoinLink::container (lines 453-472): the pre-substitution
containers rewritten through the fixed-up replacement map. -/
def container (jl : JoinLink) (store : List Atom) (oracle : Except Exc (List Atom)) :
    Except Exc HandleSet :=
  match container_pre jl store oracle with
  | .error e => .error e
  | .ok (containers, trav) => .ok (replace containers trav)

/-- AtomSpace::add_atom on the real store: interning is by content
identity and idempotent. -/
def add_atom (store : List Atom) (h : Atom) : List Atom :=
  if h ∈ store then store else store ++ [h]

/-- JoinLink::do_execute (lines 496-510): compute the container set,
then intern each member into the real store and queue it.  Returns the
queued results and the store after execution. -/
def do_execute (jl : JoinLink) (store : List Atom) (oracle : Except Exc (List Atom)) :
    Except Exc HandleSet × List Atom :=
  match container jl store oracle with
  | .error e => (.error e, store)
  | .ok hs => (.ok hs, hs.foldl add_atom store)

/-! ## Statement-level auxiliary definitions -/

/-- The unrestricted upward closure: like the principal_filter walk but
with no exclusions, collecting the atom and everything that eventually
contains it through the incoming-set relation. -/
def ancestors_rec (store : List Atom) : Nat → Atom → HandleSet → HandleSet
  | 0, _, acc => acc
  | fuel+1, h, acc =>
      (incoming store h).foldl
        (fun acc ih => ancestors_rec store fuel ih acc) (hsInsert acc h)

/-- The exclusions the spec sentence for principal_filter names: all
three type-directive shapes and the join kinds. -/
def specExcluded (a : Atom) : Bool :=
  a.kind == .typeNode || a.kind == .typeLink || a.kind == .typeOutputLink ||
    isJoinKind a.kind

/-- The set described by the wording of the spec for principal_filter:
the atom plus every structure that recursively, through the
incoming-set relation, eventually contains it, with all type-directive
atoms and all join-operator atoms excluded from the result. -/
def principal_filter_claim (store : List Atom) (h : Atom) : HandleSet :=
  hsFilter (fun a => !specExcluded a) (ancestors_rec store (store.length + 1) h [])

/-- The same JoinLink with every top-type directive removed from the
body. -/
def stripTopTypes (jl : JoinLink) : JoinLink :=
  ⟨jl.jtype, jl.varseq, jl.clauses.filter (fun c => !isTopTypeClause c)⟩

/-- The replacement map as it stands after the fixup pass has walked a
prefix of the body clauses, processing every resolvable two-argument
replacement directive and skipping everything else. -/
def fixupMapAfter (m : List (Atom × Atom)) : List Atom → List (Atom × Atom)
  | [] => m
  | c :: rest =>
    if c.kind == .replacementLink then
      match c.out with
      | [src, tgt] =>
          if m.any (fun pr => pr.2 == src) then fixupMapAfter (redirect m src tgt) rest
          else fixupMapAfter m rest
      | _ => fixupMapAfter m rest
    else fixupMapAfter m rest

/-- Directive `i` of the body is ill-formed at its turn of the fixup
pass: it is a replacement link and either lacks exactly two arguments,
or no entry of the replacement map, as rewritten by the directives
before it, resolves to its first argument. -/
abbrev badDirectiveAt (clauses : List Atom) (m : List (Atom × Atom)) (i : Nat) : Prop :=
  (clauses.getD i default).kind = .replacementLink ∧
    ((clauses.getD i default).out.length ≠ 2 ∨
      (fixupMapAfter m (clauses.take i)).any
        (fun pr => pr.2 == (clauses.getD i default).out.getD 0 default) = false)

/-! ## General membership lemmas for the set folds -/

theorem Atom.isLink_of_mem_out {a c : Atom} (h : c ∈ a.out) : a.isLink = true := by
  cases a with
  | node k n => simp [Atom.out] at h
  | link k o => rfl

theorem mem_foldl_hsInsert (x : Atom) :
    ∀ (l : List Atom) (s : HandleSet), x ∈ l.foldl hsInsert s ↔ x ∈ s ∨ x ∈ l
  | [], s => by simp
  | a :: rest, s => by
      rw [List.foldl_cons, mem_foldl_hsInsert x rest (hsInsert s a), mem_hsInsert]
      constructor
      · rintro ((hx | rfl) | hx)
        · exact Or.inl hx
        · exact Or.inr (List.mem_cons_self _ _)
        · exact Or.inr (List.mem_cons_of_mem _ hx)
      · rintro (hx | hx)
        · exact Or.inl (Or.inl hx)
        · rcases List.mem_cons.mp hx with rfl | hx
          · exact Or.inl (Or.inr rfl)
          · exact Or.inr hx

theorem mem_foldl_hsInsert_image (f : Atom → Atom) (x : Atom) :
    ∀ (l : List Atom) (s : HandleSet),
      x ∈ l.foldl (fun acc a => hsInsert acc (f a)) s ↔ x ∈ s ∨ ∃ a ∈ l, x = f a
  | [], s => by simp
  | a :: rest, s => by
      rw [List.foldl_cons, mem_foldl_hsInsert_image f x rest (hsInsert s (f a)),
        mem_hsInsert]
      constructor
      · rintro ((hx | rfl) | ⟨b, hb, rfl⟩)
        · exact Or.inl hx
        · exact Or.inr ⟨a, List.mem_cons_self _ _, rfl⟩
        · exact Or.inr ⟨b, List.mem_cons_of_mem _ hb, rfl⟩
      · rintro (hx | ⟨b, hb, rfl⟩)
        · exact Or.inl (Or.inl hx)
        · rcases List.mem_cons.mp hb with rfl | hb
          · exact Or.inl (Or.inr rfl)
          · exact Or.inr ⟨b, hb, rfl⟩

theorem mem_replace (x : Atom) (s : HandleSet) (trav : Traverse) :
    x ∈ replace s trav ↔ ∃ top ∈ s, x = substTerm trav.replace_map top := by
  rw [replace, mem_foldl_hsInsert_image]
  simp

/-- Membership after folding principal_filter over a list of
principals with one shared accumulated set. -/
theorem mem_foldl_principal_filter (store : List Atom) (l : List Atom)
    (acc : HandleSet) (x : Atom) :
    x ∈ l.foldl (fun acc pr => principal_filter store pr acc) acc ↔
      x ∈ acc ∨ ∃ p ∈ l, UpReach store p x := by
  have := mem_foldl_pf_rec store (store.length + 1)
    (fun a acc x hda => mem_principal_filter_rec store (store.length + 1) a acc hda x)
    l acc x (fun a _ => depthBound_le store a)
  exact this

/-! ## Concrete instances used by the counterexamples and witnesses -/

def vX : Atom := .node .variableNode 1
def vY : Atom := .node .variableNode 2
def n1 : Atom := .node .conceptNode 1
def n2 : Atom := .node .conceptNode 2

/-- A link joining the two groundings directly. -/
def linkA : Atom := mkLink .otherLink [n1, n2]

/-- A type-output link sitting right above linkA. -/
def linkB : Atom := mkLink .typeOutputLink [linkA]

/-- A link above the excluded linkB that also lists a grounding. -/
def linkC : Atom := mkLink .otherLink [linkB, n2]

def storeC1 : List Atom := [n1, n2, linkA, linkB, linkC]
def clauseC1 : Atom := mkLink .presentLink [mkLink .otherLink [vX, vY]]
def jlC1 : JoinLink := ⟨.minimalJoinLink, [vX, vY], [clauseC1]⟩
def oracleC1 : Except Exc (List Atom) := .ok [mkLink .listLink [n1, n2]]

def cca : Atom := .node .otherNode 5
def cc1 : Atom := mkLink .evalLink [cca]

/-- A constant clause that contains the other constant clause. -/
def cc2 : Atom := mkLink .evalLink [cc1]

def jlC3 : JoinLink := ⟨.minimalJoinLink, [], [cc1, cc2]⟩
def storeC3 : List Atom := [cca, cc1, cc2]

def sea : Atom := .node .conceptNode 10
def sand : Atom := .node .conceptNode 11
def beach : Atom := .node .conceptNode 12
def shore : Atom := .node .conceptNode 13
def mem1 : Atom := mkLink .memberLink [sea, beach]
def mem2 : Atom := mkLink .memberLink [sand, beach]
def clauseA : Atom := mkLink .presentLink [mkLink .memberLink [vX, vY]]
def replC4 : Atom := mkLink .replacementLink [vX, shore]

/-- Scenario A of the spec: the two-variable member join. -/
def jlA : JoinLink := ⟨.minimalJoinLink, [vX, vY], [clauseA]⟩

/-- Scenario C of the spec: scenario A plus Replacement(X, shore),
where X grounds to both sea and sand. -/
def jlC4 : JoinLink := ⟨.minimalJoinLink, [vX, vY], [clauseA, replC4]⟩

def storeA : List Atom := [sea, sand, beach, mem1, mem2]
def oracleA : Except Exc (List Atom) :=
  .ok [mkLink .listLink [sea, beach], mkLink .listLink [sand, beach]]
def travA : Traverse := ⟨[(sea, vX), (beach, vY), (sand, vX)], [[sea, sand], [beach]]⟩

def h5 : Atom := .node .conceptNode 30
def t5 : Atom := mkLink .typeOutputLink [h5]
def l5 : Atom := mkLink .otherLink [t5]
def storeC5 : List Atom := [h5, t5, l5]

def clauseD : Atom := mkLink .presentLink [mkLink .memberLink [vX, beach]]
def totyC6 : Atom := .node .typeNode (AKind.conceptNode.toCtorIdx)
def jlC6 : JoinLink := ⟨.minimalJoinLink, [vX], [clauseD, totyC6]⟩
def storeC6 : List Atom := [sea, beach, mem1]
def oracleC6 : Except Exc (List Atom) := .ok [sea]

def jlC7w : JoinLink := ⟨.minimalJoinLink, [vX], [clauseD]⟩
def jlC8w : JoinLink := ⟨.minimalJoinLink, [], [.node .conceptNode 99]⟩
def jlC8a : JoinLink := ⟨.joinLink, [], []⟩

def x10 : Atom := .node .conceptNode 20

/-- A join-operator atom whose outgoing lists x10: the only atom in the
incoming set of x10. -/
def j10 : Atom := mkLink .minimalJoinLink [x10]

def store10 : List Atom := [x10, j10]
def clauseP10 : Atom := mkLink .presentLink [vX]
def jl10max : JoinLink := ⟨.maximalJoinLink, [vX], [clauseP10]⟩
def jl10min : JoinLink := ⟨.minimalJoinLink, [vX], [clauseP10]⟩
def oracle10 : Except Exc (List Atom) := .ok [x10]

/-! ## Claim theorems -/

/-- C1 counterexample: in minimal mode, supremum can return two
distinct containers standing in ancestor/descendant (substructure)
relation: linkC contains linkA through the excluded type-output link
linkB, so the minimality sweep, which only inspects direct children,
keeps both. -/
theorem C1_counterexample :
    supremum jlC1 storeC1 oracleC1 ⟨[], []⟩ =
        .ok ([linkA, linkC], ⟨[(n1, vX), (n2, vY)], [[n1], [n2]]⟩) ∧
    linkA ≠ linkC ∧ inTree linkA linkC = true := by
  exact ⟨by decide, by decide, by decide⟩

/-- C1 (amended): for every JoinSpec, supremum returns upper_set minus
exactly those elements that are links having at least one direct child
also in upper_set; in the result no element is a direct child of
another element.  (Ancestor/descendant relations across atoms outside
the upper set can survive, as the counterexample shows.) -/
theorem C1_supremum_minimal (jl : JoinLink) (store : List Atom)
    (oracle : Except Exc (List Atom)) (upset : HandleSet) (trav : Traverse)
    (h : upper_set jl store oracle ⟨[], []⟩ = .ok (upset, trav)) :
    ∃ sup, supremum jl store oracle ⟨[], []⟩ = .ok (sup, trav) ∧
      (∀ x, x ∈ sup ↔
        x ∈ upset ∧ ¬(x.isLink = true ∧ ∃ c ∈ x.out, c ∈ upset)) ∧
      ∀ a ∈ sup, ∀ b ∈ sup, a ∉ b.out := by
  have hmem : ∀ x,
      x ∈ hsDiff upset
        (hsFilter (fun h => h.isLink && h.out.any (fun ho => hsMem ho upset)) upset) ↔
      x ∈ upset ∧ ¬(x.isLink = true ∧ ∃ c ∈ x.out, c ∈ upset) := by
    intro x
    rw [mem_hsDiff, mem_hsFilter]
    constructor
    · rintro ⟨hx, hnot⟩
      refine ⟨hx, fun ⟨hl, c, hc, hcu⟩ => hnot ⟨hx, ?_⟩⟩
      rw [Bool.and_eq_true, List.any_eq_true]
      exact ⟨hl, c, hc, (hsMem_iff_mem c upset).mpr hcu⟩
    · rintro ⟨hx, hnot⟩
      refine ⟨hx, fun ⟨_, hb⟩ => hnot ?_⟩
      rw [Bool.and_eq_true, List.any_eq_true] at hb
      obtain ⟨hl, c, hc, hcm⟩ := hb
      exact ⟨hl, c, hc, (hsMem_iff_mem c upset).mp hcm⟩
  refine ⟨_, by rw [supremum, h], hmem, ?_⟩
  intro a ha b hb hab
  rw [hmem] at ha hb
  exact hb.2 ⟨Atom.isLink_of_mem_out hab, a, hab, ha.1⟩

/-- C1 witness: the amended characterization applied to the concrete
counterexample store. -/
theorem C1_witness :
    ∃ sup, supremum jlC1 storeC1 oracleC1 ⟨[], []⟩ =
        .ok (sup, ⟨[(n1, vX), (n2, vY)], [[n1], [n2]]⟩) ∧
      (∀ x, x ∈ sup ↔ x ∈ ([linkA, linkC] : HandleSet) ∧
        ¬(x.isLink = true ∧ ∃ c ∈ x.out, c ∈ ([linkA, linkC] : HandleSet))) ∧
      ∀ a ∈ sup, ∀ b ∈ sup, a ∉ b.out :=
  C1_supremum_minimal jlC1 storeC1 oracleC1 [linkA, linkC]
    ⟨[(n1, vX), (n2, vY)], [[n1], [n2]]⟩ (by decide)

/-- C2: every element surviving the pruning of upper_set contains, by
recursive descent, some atom of join_map[i] for every variable index i
when more than one variable is declared; with exactly one declared
variable no pruning happens and upper_set is the union of the
principal filters of the principal elements. -/
theorem C2_upper_set_joined (jl : JoinLink) (store : List Atom)
    (oracle : Except Exc (List Atom)) (upset : HandleSet) (trav : Traverse)
    (h : upper_set jl store oracle ⟨[], []⟩ = .ok (upset, trav)) :
    (1 < jl.vsize → ∀ x ∈ upset, ∀ i < jl.vsize,
        any_atom_in_tree x (trav.join_map.getD i []) = true) ∧
    (jl.vsize = 1 → ∃ princes, principals jl oracle ⟨[], []⟩ = .ok (princes, trav) ∧
        ∀ x, x ∈ upset ↔ ∃ p ∈ princes, x ∈ principal_filter store p []) := by
  rcases hp : principals jl oracle ⟨[], []⟩ with e | ⟨princes, trav1⟩
  · rw [upper_set, hp] at h
    cases h
  · rw [upper_set, hp] at h
    by_cases h1 : jl.vsize = 1
    · simp only [h1, if_true] at h
      have hupset : princes.foldl (fun acc pr => principal_filter store pr acc) [] = upset :=
        congrArg Prod.fst (Except.ok.inj h)
      have htrav : trav1 = trav := congrArg Prod.snd (Except.ok.inj h)
      constructor
      · intro hlt
        omega
      · intro _
        rw [← htrav]
        refine ⟨princes, rfl, fun x => ?_⟩
        rw [← hupset, mem_foldl_principal_filter]
        simp only [List.not_mem_nil, false_or]
        constructor
        · rintro ⟨p, hpmem, hr⟩
          exact ⟨p, hpmem, (mem_principal_filter store p [] x).mpr (Or.inr hr)⟩
        · rintro ⟨p, hpmem, hr⟩
          rcases (mem_principal_filter store p [] x).mp hr with hc | hr
          · cases hc
          · exact ⟨p, hpmem, hr⟩
    · simp only [h1, if_false] at h
      have hupset :
          hsDiff (princes.foldl (fun acc pr => principal_filter store pr acc) [])
            (hsFilter
              (fun h =>
                (List.range jl.vsize).any
                  (fun i => !any_atom_in_tree h (trav1.join_map.getD i [])))
              (princes.foldl (fun acc pr => principal_filter store pr acc) [])) = upset :=
        congrArg Prod.fst (Except.ok.inj h)
      have htrav : trav1 = trav := congrArg Prod.snd (Except.ok.inj h)
      constructor
      · intro _ x hx i hi
        rw [← htrav]
        rw [← hupset, mem_hsDiff, mem_hsFilter] at hx
        obtain ⟨hc, hnot⟩ := hx
        by_contra hfalse
        have hf : any_atom_in_tree x (trav1.join_map.getD i []) = false := by
          revert hfalse
          cases any_atom_in_tree x (trav1.join_map.getD i []) <;> simp
        refine hnot ⟨hc, ?_⟩
        rw [List.any_eq_true]
        refine ⟨i, List.mem_range.mpr hi, ?_⟩
        rw [hf]
        rfl
      · intro h1x
        exact absurd h1x h1

/-- C2 witness: in Scenario A the surviving container mem1 contains a
grounding for variable index 0. -/
theorem C2_witness : any_atom_in_tree mem1 (travA.join_map.getD 0 []) = true :=
  (C2_upper_set_joined jlA storeA oracleA [mem1, mem2] travA (by decide)).1
    (by decide) mem1 (by decide) 0 (by decide)

/-- C5 counterexample: the principal_filter walk stops at the excluded
type-output link t5, so the link l5 above it — which transitively
contains h5 and is not itself a type directive — is missing from the
result, though the set described by the spec contains it. -/
theorem C5_counterexample :
    principal_filter storeC5 h5 [] = [h5] ∧
    principal_filter_claim storeC5 h5 = [h5, l5] ∧
    l5 ∈ principal_filter_claim storeC5 h5 ∧
    l5 ∉ principal_filter storeC5 h5 [] := by
  exact ⟨by decide, by decide, by decide, by decide⟩

/-- C5 (amended): principal_filter(h) contains exactly the atoms
reachable from h by walking upward through incoming sets along chains
in which no atom — endpoints included — is a type-output link or a
join-operator atom; atoms above an excluded atom are only reached
through other, non-excluded chains, and plain type nodes and type
links are not excluded. -/
theorem C5_principal_filter_reach (store : List Atom) (h x : Atom) :
    x ∈ principal_filter store h [] ↔ UpReach store h x := by
  rw [mem_principal_filter]
  simp

theorem AtomSeq.toList_ofList : ∀ l : List Atom, (AtomSeq.ofList l).toList = l
  | [] => rfl
  | a :: r => by rw [AtomSeq.ofList, AtomSeq.toList, AtomSeq.toList_ofList r]

theorem mkLink_out (k : AKind) (l : List Atom) : (mkLink k l).out = l :=
  AtomSeq.toList_ofList l

/-- C4 counterexample: Scenario C constructs without error, executes
without error, and rewrites every grounding of X — both sea and sand
become shore — rather than raising a ConstructionError. -/
theorem C4_counterexample :
    jlC4.init = .ok () ∧
    container jlC4 storeA oracleA = .ok [mkLink .memberLink [shore, vY]] ∧
    fixup_replacements jlC4.clauses travA =
      .ok ⟨[(sea, shore), (beach, vY), (sand, shore)], [[sea, sand], [beach]]⟩ := by
  exact ⟨by decide, by decide, by decide⟩

/-- C4 (amended): a Replacement directive whose source variable
resolves from at least one replacement-map entry never raises;
fixup_replacements succeeds and redirects every entry resolving to the
source — all simultaneous groundings are rewritten — while entries of
other variables are untouched. -/
theorem C4_fixup_rewrites_all (src tgt : Atom) (trav : Traverse)
    (hmatch : ∃ pr ∈ trav.replace_map, pr.2 = src) :
    fixup_replacements [mkLink .replacementLink [src, tgt]] trav =
      .ok ⟨redirect trav.replace_map src tgt, trav.join_map⟩ ∧
    (∀ pr ∈ trav.replace_map, pr.2 = src →
      (pr.1, tgt) ∈ redirect trav.replace_map src tgt) ∧
    (∀ pr ∈ trav.replace_map, pr.2 ≠ src →
      pr ∈ redirect trav.replace_map src tgt) := by
  obtain ⟨pr0, hpr0, hsrc⟩ := hmatch
  have hany : trav.replace_map.any (fun pr => pr.2 == src) = true := by
    rw [List.any_eq_true]
    exact ⟨pr0, hpr0, by rw [hsrc, beq_iff_eq]⟩
  refine ⟨?_, ?_, ?_⟩
  · rw [fixup_replacements]
    have hkind : ((mkLink .replacementLink [src, tgt]).kind == AKind.replacementLink) = true := rfl
    rw [hkind]
    simp only [if_true, mkLink_out, hany, fixup_replacements]
  · intro pr hpr hp2
    rw [redirect]
    refine List.mem_map.mpr ⟨pr, hpr, ?_⟩
    have : (pr.2 == src) = true := by rw [hp2, beq_iff_eq]
    rw [this]
    simp
  · intro pr hpr hp2
    rw [redirect]
    refine List.mem_map.mpr ⟨pr, hpr, ?_⟩
    have : (pr.2 == src) = false := by
      rw [Bool.eq_false_iff]
      intro hb
      exact hp2 (by rwa [beq_iff_eq] at hb)
    rw [this]
    simp

/-- C4 witness: the amended redirect-all behavior at Scenario C, where
X resolves from both sea and sand. -/
theorem C4_witness :
    fixup_replacements [mkLink .replacementLink [vX, shore]] travA =
      .ok ⟨redirect travA.replace_map vX shore, travA.join_map⟩ ∧
    (∀ pr ∈ travA.replace_map, pr.2 = vX →
      (pr.1, shore) ∈ redirect travA.replace_map vX shore) ∧
    (∀ pr ∈ travA.replace_map, pr.2 ≠ vX →
      pr ∈ redirect travA.replace_map vX shore) :=
  C4_fixup_rewrites_all vX shore travA ⟨(sea, vX), by decide, rfl⟩

/-- C7: interning into the real store happens only after the entire
container set is computed; every error during container computation —
a propagated oracle error included — leaves the store unchanged, with
no partial results interned. -/
theorem C7_all_or_nothing (jl : JoinLink) (store : List Atom)
    (oracle : Except Exc (List Atom)) :
    (∀ e, container jl store oracle = .error e →
      do_execute jl store oracle = (.error e, store)) ∧
    (∀ e, 0 < jl.vsize → oracle = .error e →
      do_execute jl store oracle = (.error e, store)) := by
  constructor
  · intro e h
    rw [do_execute, h]
  · intro e hv ho
    have h0 : ¬jl.vsize = 0 := by omega
    have hprin : principals jl oracle ⟨[], []⟩ = .error e := by
      rw [principals.eq_def]
      simp only [h0, if_false, ho]
    have hup : upper_set jl store oracle ⟨[], []⟩ = .error e := by
      rw [upper_set, hprin]
    have hsup : supremum jl store oracle ⟨[], []⟩ = .error e := by
      rw [supremum, hup]
    have hcp : container_pre jl store oracle = .error e := by
      rw [container_pre, hsup]
    have hc : container jl store oracle = .error e := by
      rw [container, hcp]
    rw [do_execute, hc]

/-- C7 witness: an oracle error on a one-variable spec propagates and
the store is unchanged. -/
theorem C7_witness :
    do_execute jlC7w storeC6 (.error .oracleErr) = (.error .oracleErr, storeC6) :=
  (C7_all_or_nothing jlC7w storeC6 (.error .oracleErr)).2 .oracleErr (by decide) rfl

/-- C8: a body clause that is no replacement directive, no presence or
evaluatable clause and no type directive makes construction fail, and
instantiating the abstract join operator type fails with the
invalid-parameter construction error. -/
theorem C8_construction_errors (jl : JoinLink) :
    (jl.jtype = .joinLink → jl.init = .error .invalidParam) ∧
    ((∃ c ∈ jl.clauses, supportedClause c = false) → ∃ e, jl.init = .error e) := by
  constructor
  · intro h
    rw [JoinLink.init, h]
    rfl
  · rintro ⟨c, hc, hcsup⟩
    rw [JoinLink.init]
    by_cases hj : isJoinKind jl.jtype = true
    · rw [hj]
      by_cases ha : (jl.jtype == AKind.joinLink) = true
      · rw [ha]
        exact ⟨.invalidParam, rfl⟩
      · rw [Bool.not_eq_true] at ha
        rw [ha]
        have hall : jl.clauses.all supportedClause = false := by
          rw [Bool.eq_false_iff]
          intro hall
          rw [List.all_eq_true] at hall
          rw [hall c hc] at hcsup
          cases hcsup
        rw [JoinLink.validate, hall]
        exact ⟨.syntaxEx, rfl⟩
    · rw [Bool.not_eq_true] at hj
      rw [hj]
      exact ⟨.invalidParam, rfl⟩

/-- C8 witness: the abstract operator and an unsupported clause shape
both fail at construction. -/
theorem C8_witness :
    jlC8a.init = .error .invalidParam ∧ ∃ e, jlC8w.init = .error e :=
  ⟨(C8_construction_errors jlC8a).1 rfl,
   (C8_construction_errors jlC8w).2 ⟨.node .conceptNode 99, by decide, by decide⟩⟩

theorem foldl_find_top_rec_join (store : List Atom) (fuel : Nat) (hfuel : fuel ≠ 0) :
    ∀ (l : List Atom) (containers : HandleSet),
      (∀ a ∈ l, isJoinKind a.kind = true) →
      l.foldl (find_top_rec store fuel) containers = containers := by
  intro l
  induction l with
  | nil => intro containers _; rfl
  | cons b rest ih =>
      intro containers hall
      obtain ⟨f, rfl⟩ : ∃ f, fuel = f + 1 := by
        cases fuel
        · exact absurd rfl hfuel
        · exact ⟨_, rfl⟩
      have hb : isJoinKind b.kind = true := hall b (List.mem_cons_self _ _)
      rw [List.foldl_cons]
      have hstep : find_top_rec store (f + 1) containers b = containers := by
        rw [find_top_rec, hb]
        simp
      rw [hstep]
      exact ih containers (fun a ha => hall a (List.mem_cons_of_mem _ ha))

/-- C10: in maximal mode, find_top applied to an atom whose incoming
set is non-empty but consists solely of join-operator atoms inserts
nothing — neither the atom itself nor anything above it — and on a
concrete store the MaximalJoin container set is empty while the
corresponding minimal join is not. -/
theorem C10_find_top_skips_joins :
    (∀ (store : List Atom) (containers : HandleSet) (h : Atom),
        isJoinKind h.kind = false →
        incoming store h ≠ [] →
        (∀ a ∈ incoming store h, isJoinKind a.kind = true) →
        find_top store containers h = containers) ∧
    container jl10max store10 oracle10 = .ok [] ∧
    container jl10min store10 oracle10 = .ok [vX] := by
  refine ⟨?_, by decide, by decide⟩
  intro store containers h hnj hne hall
  have hlen : store.length ≠ 0 := by
    obtain ⟨a, ha⟩ := List.exists_mem_of_ne_nil _ hne
    have := (mem_incoming.mp ha).1
    intro h0
    rw [List.length_eq_zero] at h0
    subst h0
    cases this
  rw [find_top, find_top_rec, hnj]
  simp only [Bool.false_eq_true, if_false]
  have hemp : (incoming store h).isEmpty = false := by
    rw [List.isEmpty_eq_false_iff_exists_mem]
    exact List.exists_mem_of_ne_nil _ hne
  rw [hemp]
  simp only [Bool.false_eq_true, if_false]
  exact foldl_find_top_rec_join store store.length hlen (incoming store h) containers hall

/-- C10 witness: x10 has a non-empty incoming set consisting solely of
the join atom j10, and find_top inserts nothing for it. -/
theorem C10_witness : find_top store10 [] x10 = [] :=
  (C10_find_top_skips_joins).1 store10 [] x10 (by decide) (by decide) (by decide)

theorem exists_lt_succ_iff {n : Nat} {P : Nat → Prop} :
    (∃ i, i < n + 1 ∧ P i) ↔ P 0 ∨ ∃ j, j < n ∧ P (j + 1) := by
  constructor
  · rintro ⟨i, hi, hp⟩
    cases i with
    | zero => exact Or.inl hp
    | succ j => exact Or.inr ⟨j, by omega, hp⟩
  · rintro (hp | ⟨j, hj, hp⟩)
    · exact ⟨0, by omega, hp⟩
    · exact ⟨j + 1, by omega, hp⟩

/-- One fixup step commutes with the rest of the walk. -/
theorem fixupMapAfter_cons (m : List (Atom × Atom)) (c : Atom) (l : List Atom) :
    fixupMapAfter m (c :: l) = fixupMapAfter (fixupMapAfter m [c]) l := by
  by_cases hk : (c.kind == AKind.replacementLink) = true
  · rcases hout : c.out with _ | ⟨a, _ | ⟨b, _ | ⟨d, tail⟩⟩⟩ <;>
      simp only [fixupMapAfter, hk, if_true, hout] <;>
      by_cases hany : m.any (fun pr => pr.2 == a) = true <;>
      simp only [hany, Bool.false_eq_true, if_true, if_false, fixupMapAfter]
  · rw [Bool.not_eq_true] at hk
    simp only [fixupMapAfter, hk, Bool.false_eq_true, if_false]

theorem badDirectiveAt_zero (c : Atom) (rest : List Atom) (m : List (Atom × Atom)) :
    badDirectiveAt (c :: rest) m 0 ↔
      c.kind = .replacementLink ∧
        (c.out.length ≠ 2 ∨
          m.any (fun pr => pr.2 == c.out.getD 0 default) = false) := by
  unfold badDirectiveAt
  rw [List.getD_cons_zero, List.take_zero]
  rfl

theorem badDirectiveAt_succ (c : Atom) (rest : List Atom) (m : List (Atom × Atom)) (j : Nat) :
    badDirectiveAt (c :: rest) m (j + 1) ↔
      badDirectiveAt rest (fixupMapAfter m [c]) j := by
  unfold badDirectiveAt
  rw [List.getD_cons_succ, List.take_succ_cons, fixupMapAfter_cons]

theorem fixup_replacements_error_syntax (clauses : List Atom) :
    ∀ (trav : Traverse) (e : Exc),
      fixup_replacements clauses trav = .error e → e = .syntaxEx := by
  induction clauses with
  | nil =>
      intro trav e h
      simp [fixup_replacements] at h
  | cons c rest ih =>
      intro trav e h
      by_cases hk : (c.kind == AKind.replacementLink) = true
      · rcases hout : c.out with _ | ⟨a, _ | ⟨b, _ | ⟨d, tail⟩⟩⟩
        · have hu : fixup_replacements (c :: rest) trav = .error .syntaxEx := by
            rw [fixup_replacements, hk, hout]
            rfl
          rw [hu] at h
          exact (Except.error.inj h).symm
        · have hu : fixup_replacements (c :: rest) trav = .error .syntaxEx := by
            rw [fixup_replacements, hk, hout]
            rfl
          rw [hu] at h
          exact (Except.error.inj h).symm
        · have hu : fixup_replacements (c :: rest) trav =
              (if trav.replace_map.any (fun pr => pr.2 == a) then
                fixup_replacements rest ⟨redirect trav.replace_map a b, trav.join_map⟩
              else .error .syntaxEx) := by
            rw [fixup_replacements, hk, hout]
            rfl
          rw [hu] at h
          by_cases hany : trav.replace_map.any (fun pr => pr.2 == a) = true
          · rw [hany] at h
            simp only [if_true] at h
            exact ih _ e h
          · rw [Bool.not_eq_true] at hany
            rw [hany] at h
            simp only [Bool.false_eq_true, if_false] at h
            exact (Except.error.inj h).symm
        · have hu : fixup_replacements (c :: rest) trav = .error .syntaxEx := by
            rw [fixup_replacements, hk, hout]
            rfl
          rw [hu] at h
          exact (Except.error.inj h).symm
      · rw [Bool.not_eq_true] at hk
        have hu : fixup_replacements (c :: rest) trav = fixup_replacements rest trav := by
          rw [fixup_replacements, hk]
          rfl
        rw [hu] at h
        exact ih _ e h

theorem fixup_replacements_errors_iff (clauses : List Atom) :
    ∀ (trav : Traverse),
      (∃ e, fixup_replacements clauses trav = .error e) ↔
        ∃ i, i < clauses.length ∧ badDirectiveAt clauses trav.replace_map i := by
  induction clauses with
  | nil =>
      intro trav
      constructor
      · rintro ⟨e, h⟩
        simp [fixup_replacements] at h
      · rintro ⟨i, hi, _⟩
        simp at hi
  | cons c rest ih =>
      intro trav
      rw [List.length_cons, exists_lt_succ_iff, badDirectiveAt_zero]
      have hsucc : (∃ j, j < rest.length ∧ badDirectiveAt (c :: rest) trav.replace_map (j + 1)) ↔
          ∃ j, j < rest.length ∧ badDirectiveAt rest (fixupMapAfter trav.replace_map [c]) j :=
        exists_congr fun j => and_congr_right fun _ =>
          badDirectiveAt_succ c rest trav.replace_map j
      rw [hsucc]
      by_cases hk : (c.kind == AKind.replacementLink) = true
      · have hkp : c.kind = .replacementLink := by rwa [beq_iff_eq] at hk
        rcases hout : c.out with _ | ⟨a, _ | ⟨b, _ | ⟨d, tail⟩⟩⟩
        · have hu : fixup_replacements (c :: rest) trav = .error .syntaxEx := by
            rw [fixup_replacements, hk, hout]
            rfl
          constructor
          · intro _
            exact Or.inl ⟨hkp, Or.inl (by simp)⟩
          · intro _
            exact ⟨.syntaxEx, hu⟩
        · have hu : fixup_replacements (c :: rest) trav = .error .syntaxEx := by
            rw [fixup_replacements, hk, hout]
            rfl
          constructor
          · intro _
            exact Or.inl ⟨hkp, Or.inl (by simp)⟩
          · intro _
            exact ⟨.syntaxEx, hu⟩
        · have hstep : fixupMapAfter trav.replace_map [c] =
              (if trav.replace_map.any (fun pr => pr.2 == a) then
                redirect trav.replace_map a b
              else trav.replace_map) := by
            rw [fixupMapAfter, hk, hout]
            rfl
          have hu : fixup_replacements (c :: rest) trav =
              (if trav.replace_map.any (fun pr => pr.2 == a) then
                fixup_replacements rest ⟨redirect trav.replace_map a b, trav.join_map⟩
              else .error .syntaxEx) := by
            rw [fixup_replacements, hk, hout]
            rfl
          by_cases hany : trav.replace_map.any (fun pr => pr.2 == a) = true
          · rw [hany] at hu hstep
            simp only [if_true] at hu hstep
            rw [hstep]
            have hbad0 : ¬(c.kind = .replacementLink ∧
                (([a, b] : List Atom).length ≠ 2 ∨
                  trav.replace_map.any
                    (fun pr => pr.2 == ([a, b] : List Atom).getD 0 default) = false)) := by
              rintro ⟨_, hlen | hanyf⟩
              · simp at hlen
              · simp only [List.getD_cons_zero] at hanyf
                rw [hany] at hanyf
                cases hanyf
            constructor
            · rintro ⟨e, h⟩
              rw [hu] at h
              exact Or.inr ((ih ⟨redirect trav.replace_map a b, trav.join_map⟩).mp ⟨e, h⟩)
            · rintro (h0 | h)
              · exact absurd h0 hbad0
              · obtain ⟨e, h⟩ :=
                  (ih ⟨redirect trav.replace_map a b, trav.join_map⟩).mpr h
                exact ⟨e, by rw [hu]; exact h⟩
          · rw [Bool.not_eq_true] at hany
            rw [hany] at hu
            simp only [Bool.false_eq_true, if_false] at hu
            constructor
            · intro _
              refine Or.inl ⟨hkp, Or.inr ?_⟩
              simpa using hany
            · intro _
              exact ⟨.syntaxEx, hu⟩
        · have hu : fixup_replacements (c :: rest) trav = .error .syntaxEx := by
            rw [fixup_replacements, hk, hout]
            rfl
          constructor
          · intro _
            exact Or.inl ⟨hkp, Or.inl (by simp)⟩
          · intro _
            exact ⟨.syntaxEx, hu⟩
      · have hkp : ¬(c.kind = .replacementLink) := by
          intro hc
          rw [hc] at hk
          exact hk rfl
        rw [Bool.not_eq_true] at hk
        have hu : fixup_replacements (c :: rest) trav = fixup_replacements rest trav := by
          rw [fixup_replacements, hk]
          rfl
        have hstep : fixupMapAfter trav.replace_map [c] = trav.replace_map := by
          rw [fixupMapAfter, hk]
          rfl
        rw [hstep]
        constructor
        · rintro ⟨e, h⟩
          rw [hu] at h
          exact Or.inr ((ih trav).mp ⟨e, h⟩)
        · rintro (h0 | h)
          · exact absurd h0.1 hkp
          · obtain ⟨e, h⟩ := (ih trav).mpr h
            exact ⟨e, by rw [hu]; exact h⟩

/-- C9: fixup_replacements raises an error exactly when some
replacement directive lacks exactly two arguments or no declared
variable currently — after the directives before it have been applied —
resolves through the replacement map to its first argument; every such
error is the SyntaxException; and a fixup error inside container
computation leaves the real store unchanged. -/
theorem C9_fixup_error_characterization (clauses : List Atom) (trav : Traverse) :
    ((∃ e, fixup_replacements clauses trav = .error e) ↔
      ∃ i, i < clauses.length ∧ badDirectiveAt clauses trav.replace_map i) ∧
    (∀ e, fixup_replacements clauses trav = .error e → e = .syntaxEx) ∧
    (∀ (jl : JoinLink) (store : List Atom) (oracle : Except Exc (List Atom))
        (sup : HandleSet) (trav2 : Traverse) (e : Exc),
      supremum jl store oracle ⟨[], []⟩ = .ok (sup, trav2) →
      fixup_replacements jl.clauses trav2 = .error e →
      do_execute jl store oracle = (.error e, store)) := by
  refine ⟨fixup_replacements_errors_iff clauses trav,
    fixup_replacements_error_syntax clauses trav, ?_⟩
  intro jl store oracle sup trav2 e hsup hf
  have hcp : container_pre jl store oracle = .error e := by
    rw [container_pre, hsup]
    simp only [hf]
  have hc : container jl store oracle = .error e := by
    rw [container, hcp]
  rw [do_execute, hc]

/-- C9 witness: a replacement directive with an unresolvable source
makes fixup_replacements fail on an empty replacement map. -/
theorem C9_witness :
    ∃ e, fixup_replacements [replC4] ⟨[], []⟩ = .error e :=
  (C9_fixup_error_characterization [replC4] ⟨[], []⟩).1.mpr ⟨0, by decide, by decide⟩

/-- C3 counterexample: with zero variables and the two constant
clauses cc1 and cc2, where cc2 contains cc1, the minimality sweep of
supremum removes cc2, so container() is strictly smaller than the
constant-clause set. -/
theorem C3_counterexample :
    jlC3.vsize = 0 ∧
    jlC3.const_terms = [cc1, cc2] ∧
    container jlC3 storeC3 (.ok []) = .ok [cc1] ∧
    container jlC3 storeC3 (.ok []) ≠ .ok jlC3.const_terms := by
  exact ⟨by decide, by decide, by decide, by decide⟩

theorem mem_const_terms (jl : JoinLink) (x : Atom) :
    x ∈ jl.const_terms ↔
      x ∈ jl.clauses ∧ containerLevelClause x = false ∧ hasVars x = false := by
  rw [JoinLink.const_terms, mem_foldl_hsInsert, List.mem_filter]
  simp only [List.not_mem_nil, false_or, Bool.and_eq_true, Bool.not_eq_true']

theorem kind_present_or_eval {x : Atom} (hs : supportedClause x = true)
    (hc : containerLevelClause x = false) :
    x.kind = .presentLink ∨ x.kind = .evalLink := by
  unfold supportedClause at hs
  unfold containerLevelClause at hc
  cases hk : x.kind <;> rw [hk] at hs hc <;> simp_all

theorem pfExcluded_of_present_or_eval {x : Atom}
    (h : x.kind = .presentLink ∨ x.kind = .evalLink) : pfExcluded x = false := by
  rcases h with h | h <;> rw [pfExcluded, isJoinKind, h] <;> rfl

theorem validate_all_supported {jl : JoinLink} (hval : jl.validate = .ok ()) :
    jl.clauses.all supportedClause = true := by
  by_cases h : jl.clauses.all supportedClause = true
  · exact h
  · rw [Bool.not_eq_true] at h
    rw [JoinLink.validate, h] at hval
    simp at hval

theorem fixup_replacements_no_repl :
    ∀ (clauses : List Atom) (trav : Traverse),
      (∀ c ∈ clauses, (c.kind == AKind.replacementLink) = false) →
      fixup_replacements clauses trav = .ok trav
  | [], _, _ => rfl
  | c :: rest, trav, hno => by
      have hk : (c.kind == AKind.replacementLink) = false :=
        hno c (List.mem_cons_self _ _)
      have hu : fixup_replacements (c :: rest) trav = fixup_replacements rest trav := by
        rw [fixup_replacements, hk]
        rfl
      rw [hu]
      exact fixup_replacements_no_repl rest trav
        (fun a ha => hno a (List.mem_cons_of_mem _ ha))

theorem hsDiff_nil : ∀ s : HandleSet, hsDiff s [] = s
  | [] => rfl
  | a :: rest => by
      have ih := hsDiff_nil rest
      rw [hsDiff] at ih ⊢
      rw [List.filter_cons]
      have ht : (!hsMem a []) = true := rfl
      rw [ht]
      simp only [if_true]
      rw [ih]

/-- With no declared variables, upper_set returns the accumulated
principal filters of the constant terms and the untouched traversal
state, independently of the oracle. -/
theorem upper_set_zero (jl : JoinLink) (store : List Atom)
    (oracle : Except Exc (List Atom)) (trav0 : Traverse) (hv : jl.vsize = 0) :
    upper_set jl store oracle trav0 =
      .ok (jl.const_terms.foldl (fun acc pr => principal_filter store pr acc) [], trav0) := by
  have hprin : principals jl oracle trav0 = .ok (jl.const_terms, trav0) := by
    rw [principals.eq_def]
    simp [hv]
  rw [upper_set, hprin]
  have h1 : ¬jl.vsize = 1 := by omega
  simp only [h1, if_false]
  have hunj : hsFilter
      (fun h =>
        (List.range jl.vsize).any
          (fun i => !any_atom_in_tree h (trav0.join_map.getD i [])))
      (jl.const_terms.foldl (fun acc pr => principal_filter store pr acc) []) = [] := by
    rw [hv]
    simp [hsFilter]
  rw [hunj, hsDiff_nil]

/-- With no declared variables and a validated body, supremum keeps
exactly the constant clauses having no direct child in the upward
closure of the constant clauses. -/
theorem supremum_zero (jl : JoinLink) (store : List Atom)
    (oracle : Except Exc (List Atom)) (hv : jl.vsize = 0)
    (hall : jl.clauses.all supportedClause = true) :
    ∃ sup, supremum jl store oracle ⟨[], []⟩ = .ok (sup, ⟨[], []⟩) ∧
      ∀ x, x ∈ sup ↔ x ∈ jl.const_terms ∧
        ∀ c ∈ x.out,
          c ∉ jl.const_terms.foldl (fun acc pr => principal_filter store pr acc) [] := by
  have hup := upper_set_zero jl store oracle ⟨[], []⟩ hv
  rw [supremum, hup]
  refine ⟨_, rfl, fun x => ?_⟩
  have hmemU : ∀ y, y ∈ jl.const_terms.foldl (fun acc pr => principal_filter store pr acc) [] ↔
      ∃ p ∈ jl.const_terms, UpReach store p y := by
    intro y
    rw [mem_foldl_principal_filter]
    simp
  have hnotexc : ∀ y ∈ jl.const_terms, pfExcluded y = false := by
    intro y hy
    rw [mem_const_terms] at hy
    obtain ⟨hcl, hclc, _⟩ := hy
    rw [List.all_eq_true] at hall
    exact pfExcluded_of_present_or_eval (kind_present_or_eval (hall y hcl) hclc)
  rw [mem_hsDiff, mem_hsFilter]
  constructor
  · rintro ⟨hxU, hnot⟩
    have hnm : ¬(x.isLink && x.out.any fun ho =>
        hsMem ho (jl.const_terms.foldl (fun acc pr => principal_filter store pr acc) [])) = true :=
      fun hb => hnot ⟨hxU, hb⟩
    have hnochild : ∀ c ∈ x.out,
        c ∉ jl.const_terms.foldl (fun acc pr => principal_filter store pr acc) [] := by
      intro c hc hcU
      refine hnm ?_
      rw [Bool.and_eq_true, List.any_eq_true]
      exact ⟨Atom.isLink_of_mem_out hc, c, hc,
        (hsMem_iff_mem c _).mpr hcU⟩
    refine ⟨?_, hnochild⟩
    obtain ⟨p, hp, hreach⟩ := (hmemU x).mp hxU
    cases hreach with
    | refl _ => exact hp
    | step hpa hinc hex =>
        rename_i a
        have haU : a ∈ jl.const_terms.foldl (fun acc pr => principal_filter store pr acc) [] :=
          (hmemU a).mpr ⟨p, hp, hpa⟩
        have hax : a ∈ x.out := (mem_incoming.mp hinc).2
        exact absurd haU (hnochild a hax)
  · rintro ⟨hxc, hnochild⟩
    have hxU : x ∈ jl.const_terms.foldl (fun acc pr => principal_filter store pr acc) [] :=
      (hmemU x).mpr ⟨x, hxc, UpReach.refl (hnotexc x hxc)⟩
    refine ⟨hxU, fun ⟨_, hb⟩ => ?_⟩
    rw [Bool.and_eq_true, List.any_eq_true] at hb
    obtain ⟨_, c, hc, hcm⟩ := hb
    exact hnochild c hc ((hsMem_iff_mem c _).mp hcm)

/-- C3 (amended): for a validated minimal-mode JoinSpec with zero
declared variables and no replacement or top-type clauses, no
grounding search runs (the result is oracle-independent), the
traversal state stays empty (empty join map and replacement map), and
container() returns the constant clauses minus those with a direct
child in the upward closure of the constant clauses — a proper subset
of the constant-clause set when one constant clause contains
another. -/
theorem C3_zero_variable_container (jl : JoinLink) (store : List Atom)
    (hv : jl.vsize = 0) (hinit : jl.init = .ok ())
    (hmin : jl.jtype = .minimalJoinLink)
    (hnorep : ∀ c ∈ jl.clauses, (c.kind == AKind.replacementLink) = false)
    (hnotop : jl.top_types = []) :
    (∀ oracle oracle2, container jl store oracle = container jl store oracle2) ∧
    (∀ oracle, ∃ sup, container_pre jl store oracle = .ok (sup, ⟨[], []⟩)) ∧
    (∀ oracle S, container jl store oracle = .ok S →
      ∀ x, x ∈ S ↔ x ∈ jl.const_terms ∧
        ∀ c ∈ x.out,
          c ∉ jl.const_terms.foldl (fun acc pr => principal_filter store pr acc) []) := by
  have hval : jl.validate = .ok () := by
    rw [JoinLink.init, hmin] at hinit
    simpa using hinit
  have hall : jl.clauses.all supportedClause = true := validate_all_supported hval
  have hmax : (jl.jtype == AKind.maximalJoinLink) = false := by
    rw [hmin]
    rfl
  have hlen : ¬(0 < jl.top_types.length) := by
    rw [hnotop]
    simp
  have hkey : ∀ oracle : Except Exc (List Atom),
      ∃ sup, container_pre jl store oracle = .ok (sup, ⟨[], []⟩) ∧
        container jl store oracle = .ok (replace sup ⟨[], []⟩) ∧
        ∀ x, x ∈ sup ↔ x ∈ jl.const_terms ∧
          ∀ c ∈ x.out,
            c ∉ jl.const_terms.foldl (fun acc pr => principal_filter store pr acc) [] := by
    intro oracle
    obtain ⟨sup, hsup, hchar⟩ := supremum_zero jl store oracle hv hall
    have hfix : fixup_replacements jl.clauses (⟨[], []⟩ : Traverse) = .ok ⟨[], []⟩ :=
      fixup_replacements_no_repl jl.clauses ⟨[], []⟩ hnorep
    have hcp : container_pre jl store oracle = .ok (sup, ⟨[], []⟩) := by
      rw [container_pre, hsup]
      simp only [hmax, Bool.false_eq_true, if_false, hlen, hfix]
    refine ⟨sup, hcp, ?_, hchar⟩
    rw [container, hcp]
  constructor
  · intro oracle oracle2
    obtain ⟨s1, hcp1, hc1, hch1⟩ := hkey oracle
    obtain ⟨s2, hcp2, hc2, hch2⟩ := hkey oracle2
    have hs : s1 = s2 := by
      have h12 := upper_set_zero jl store oracle (⟨[], []⟩ : Traverse) hv
      have h22 := upper_set_zero jl store oracle2 (⟨[], []⟩ : Traverse) hv
      have hsup1 : supremum jl store oracle ⟨[], []⟩ =
          supremum jl store oracle2 ⟨[], []⟩ := by
        rw [supremum, h12, supremum, h22]
      have e1 : container_pre jl store oracle = container_pre jl store oracle2 := by
        rw [container_pre, container_pre, hsup1]
      rw [hcp1, hcp2] at e1
      exact congrArg Prod.fst (Except.ok.inj e1)
    rw [hc1, hc2, hs]
  · exact ⟨fun oracle => (hkey oracle).imp (fun s h => h.1), by
      intro oracle S hS x
      obtain ⟨sup, hcp, hc, hchar⟩ := hkey oracle
      rw [hc] at hS
      have hrep : S = replace sup ⟨[], []⟩ := (Except.ok.inj hS).symm
      rw [hrep]
      rw [mem_replace]
      constructor
      · rintro ⟨top, htop, rfl⟩
        rw [substTerm_nil]
        exact (hchar top).mp htop
      · intro hx
        exact ⟨x, (hchar x).mpr hx, (substTerm_nil x).symm⟩⟩

/-- C3 witness: the zero-variable spec computes the same container set
whatever the oracle answers — even an oracle error — since no search
runs. -/
theorem C3_witness :
    container jlC3 storeC3 (.ok []) = container jlC3 storeC3 (.error .oracleErr) :=
  (C3_zero_variable_container jlC3 storeC3 (by decide) (by decide) (by decide)
    (by decide) (by decide)).1 (.ok []) (.error .oracleErr)

/-! ## C6: removing the top-type directives -/

theorem strip_jtype (jl : JoinLink) : (stripTopTypes jl).jtype = jl.jtype := rfl

theorem strip_varseq (jl : JoinLink) : (stripTopTypes jl).varseq = jl.varseq := rfl

theorem strip_vsize (jl : JoinLink) : (stripTopTypes jl).vsize = jl.vsize := rfl

/-- A top-type directive is one of the container-level clause shapes. -/
theorem containerLevel_of_topType (c : Atom) (h : isTopTypeClause c = true) :
    containerLevelClause c = true := by
  simp only [isTopTypeClause, Bool.or_eq_true, beq_iff_eq] at h
  simp only [containerLevelClause, Bool.or_eq_true, beq_iff_eq]
  tauto

/-- Dropping the top-type directives leaves the constant meet clauses
unchanged: a type directive is container-level and so never a constant
clause. -/
theorem strip_const_terms (jl : JoinLink) :
    (stripTopTypes jl).const_terms = jl.const_terms := by
  simp only [JoinLink.const_terms, stripTopTypes]
  rw [List.filter_filter]
  congr 1
  apply List.filter_congr
  intro c _
  cases hc : isTopTypeClause c
  · simp [hc]
  · simp [hc, containerLevel_of_topType c hc]

/-- After stripping, no top-type directive remains. -/
theorem strip_top_types (jl : JoinLink) : (stripTopTypes jl).top_types = [] := by
  simp only [JoinLink.top_types, stripTopTypes]
  rw [List.filter_filter]
  apply List.filter_eq_nil_iff.mpr
  intro c _
  simp [Bool.and_comm]

/-- fixup_replacements ignores clauses removed by a filter that keeps
every replacement directive. -/
theorem fixup_filter_keep (keep : Atom → Bool)
    (hkeep : ∀ c, (c.kind == AKind.replacementLink) = true → keep c = true) :
    ∀ (clauses : List Atom) (trav : Traverse),
      fixup_replacements (clauses.filter keep) trav = fixup_replacements clauses trav
  | [], _ => rfl
  | c :: rest, trav => by
      cases hkc : keep c
      · have hk : (c.kind == AKind.replacementLink) = false := by
          cases h : (c.kind == AKind.replacementLink)
          · rfl
          · exact absurd (hkeep c h) (by simp [hkc])
        rw [List.filter_cons_of_neg (by simp [hkc])]
        rw [fixup_filter_keep keep hkeep rest trav]
        have hu : fixup_replacements (c :: rest) trav = fixup_replacements rest trav := by
          rw [fixup_replacements, hk]
          rfl
        rw [hu]
      · rw [List.filter_cons_of_pos hkc]
        by_cases hk : (c.kind == AKind.replacementLink) = true
        · rcases hout : c.out with _ | ⟨a, _ | ⟨b, _ | ⟨d, tail⟩⟩⟩
          · have hu1 : fixup_replacements (c :: rest.filter keep) trav = .error .syntaxEx := by
              rw [fixup_replacements, hk, hout]
              rfl
            have hu2 : fixup_replacements (c :: rest) trav = .error .syntaxEx := by
              rw [fixup_replacements, hk, hout]
              rfl
            rw [hu1, hu2]
          · have hu1 : fixup_replacements (c :: rest.filter keep) trav = .error .syntaxEx := by
              rw [fixup_replacements, hk, hout]
              rfl
            have hu2 : fixup_replacements (c :: rest) trav = .error .syntaxEx := by
              rw [fixup_replacements, hk, hout]
              rfl
            rw [hu1, hu2]
          · have hu1 : fixup_replacements (c :: rest.filter keep) trav =
                (if trav.replace_map.any (fun pr => pr.2 == a) then
                  fixup_replacements (rest.filter keep)
                    ⟨redirect trav.replace_map a b, trav.join_map⟩
                else .error .syntaxEx) := by
              rw [fixup_replacements, hk, hout]
              rfl
            have hu2 : fixup_replacements (c :: rest) trav =
                (if trav.replace_map.any (fun pr => pr.2 == a) then
                  fixup_replacements rest ⟨redirect trav.replace_map a b, trav.join_map⟩
                else .error .syntaxEx) := by
              rw [fixup_replacements, hk, hout]
              rfl
            rw [hu1, hu2]
            by_cases hany : trav.replace_map.any (fun pr => pr.2 == a) = true
            · rw [hany]
              simp only [if_true]
              exact fixup_filter_keep keep hkeep rest _
            · rw [Bool.not_eq_true] at hany
              rw [hany]
              simp only [Bool.false_eq_true, if_false]
          · have hu1 : fixup_replacements (c :: rest.filter keep) trav = .error .syntaxEx := by
              rw [fixup_replacements, hk, hout]
              rfl
            have hu2 : fixup_replacements (c :: rest) trav = .error .syntaxEx := by
              rw [fixup_replacements, hk, hout]
              rfl
            rw [hu1, hu2]
        · rw [Bool.not_eq_true] at hk
          have hu1 : fixup_replacements (c :: rest.filter keep) trav =
              fixup_replacements (rest.filter keep) trav := by
            rw [fixup_replacements, hk]
            rfl
          have hu2 : fixup_replacements (c :: rest) trav = fixup_replacements rest trav := by
            rw [fixup_replacements, hk]
            rfl
          rw [hu1, hu2]
          exact fixup_filter_keep keep hkeep rest trav

/-- Dropping the top-type directives does not change the replacement
fixup: a type directive is never a replacement directive. -/
theorem strip_fixup (jl : JoinLink) (trav : Traverse) :
    fixup_replacements (stripTopTypes jl).clauses trav =
      fixup_replacements jl.clauses trav :=
  fixup_filter_keep (fun c => !isTopTypeClause c)
    (fun c h => by
      rw [beq_iff_eq] at h
      simp only [isTopTypeClause, h]
      decide)
    jl.clauses trav

/-- principals sees only the variables and the constant clauses, both
untouched by stripping. -/
theorem principals_strip (jl : JoinLink) (oracle : Except Exc (List Atom))
    (trav : Traverse) :
    principals (stripTopTypes jl) oracle trav = principals jl oracle trav := by
  rw [principals.eq_def, principals.eq_def, strip_vsize, strip_const_terms, strip_varseq]

/-- upper_set is unchanged by stripping the top-type directives. -/
theorem upper_set_strip (jl : JoinLink) (store : List Atom)
    (oracle : Except Exc (List Atom)) (trav : Traverse) :
    upper_set (stripTopTypes jl) store oracle trav = upper_set jl store oracle trav := by
  rw [upper_set.eq_def, upper_set.eq_def, principals_strip, strip_vsize]

/-- supremum is unchanged by stripping the top-type directives. -/
theorem supremum_strip (jl : JoinLink) (store : List Atom)
    (oracle : Except Exc (List Atom)) (trav : Traverse) :
    supremum (stripTopTypes jl) store oracle trav = supremum jl store oracle trav := by
  rw [supremum.eq_def, supremum.eq_def, upper_set_strip]

/-- C6: for every JoinSpec whose execution succeeds, the same spec
with all top-type directives removed succeeds and returns a superset
of the original result; but the type-membership checks of the
directives are guaranteed only on the pre-substitution containers —
the constraint is applied before the replacement-map rewrite, so the
final, substituted members need not pass it. -/
theorem C6_strip_monotone (jl : JoinLink) (store : List Atom)
    (oracle : Except Exc (List Atom)) (S : HandleSet)
    (h : container jl store oracle = .ok S) :
    (∃ S2, container (stripTopTypes jl) store oracle = .ok S2 ∧ ∀ x ∈ S, x ∈ S2) ∧
    ∃ ctn trav, container_pre jl store oracle = .ok (ctn, trav) ∧
      S = replace ctn trav ∧
      ∀ x ∈ ctn, ∀ toty ∈ jl.top_types, value_is_type toty x = true := by
  rcases hcp : container_pre jl store oracle with e | ⟨ctn, trav⟩
  · rw [container, hcp] at h
    exact absurd h (by simp)
  have hS : S = replace ctn trav := by
    rw [container, hcp] at h
    exact (Except.ok.inj h).symm
  rcases hsup : supremum jl store oracle ⟨[], []⟩ with e | ⟨sup, trav1⟩
  · rw [container_pre, hsup] at hcp
    exact absurd hcp (by simp)
  rcases hfix : fixup_replacements jl.clauses trav1 with e | trav2
  · rw [container_pre, hsup] at hcp
    simp only [hfix] at hcp
    exact absurd hcp (by simp)
  have hcp2 : container_pre jl store oracle = .ok
      ((if 0 < jl.top_types.length then
          constrain jl
            (if jl.jtype == .maximalJoinLink then sup.foldl (find_top store) [] else sup)
        else
          (if jl.jtype == .maximalJoinLink then sup.foldl (find_top store) [] else sup)),
       trav2) := by
    rw [container_pre, hsup]
    simp only [hfix]
  rw [hcp] at hcp2
  have hctn : ctn =
      (if 0 < jl.top_types.length then
        constrain jl
          (if jl.jtype == .maximalJoinLink then sup.foldl (find_top store) [] else sup)
      else
        (if jl.jtype == .maximalJoinLink then sup.foldl (find_top store) [] else sup)) :=
    congrArg Prod.fst (Except.ok.inj hcp2)
  have htrav : trav = trav2 := congrArg Prod.snd (Except.ok.inj hcp2)
  constructor
  · have hsup2 : supremum (stripTopTypes jl) store oracle ⟨[], []⟩ = .ok (sup, trav1) := by
      rw [supremum_strip, hsup]
    have hfix2 : fixup_replacements (stripTopTypes jl).clauses trav1 = .ok trav2 := by
      rw [strip_fixup, hfix]
    have hlen2 : ¬0 < (stripTopTypes jl).top_types.length := by
      rw [strip_top_types]
      simp
    have hcp3 : container_pre (stripTopTypes jl) store oracle = .ok
        ((if jl.jtype == .maximalJoinLink then sup.foldl (find_top store) [] else sup),
         trav2) := by
      rw [container_pre, hsup2]
      simp only [hfix2, strip_jtype, hlen2, if_false]
    refine ⟨_, by rw [container, hcp3], ?_⟩
    intro x hx
    rw [hS, htrav, mem_replace] at hx
    obtain ⟨top, htop, rfl⟩ := hx
    rw [mem_replace]
    refine ⟨top, ?_, rfl⟩
    rw [hctn] at htop
    by_cases hlen : 0 < jl.top_types.length
    · rw [if_pos hlen] at htop
      exact ((mem_hsDiff top _ _).mp htop).1
    · rwa [if_neg hlen] at htop
  · refine ⟨ctn, trav, rfl, hS, ?_⟩
    intro x hx toty htoty
    by_cases hlen : 0 < jl.top_types.length
    · rw [hctn, if_pos hlen, constrain, mem_hsDiff] at hx
      obtain ⟨hxin, hxrej⟩ := hx
      by_contra hfail
      refine hxrej ((mem_hsFilter x _ _).mpr ⟨hxin, ?_⟩)
      rw [List.any_eq_true]
      exact ⟨toty, htoty, by simp [Bool.not_eq_true] at hfail ⊢; exact hfail⟩
    · rw [Nat.not_lt, Nat.le_zero, List.length_eq_zero] at hlen
      rw [hlen] at htoty
      exact absurd htoty (List.not_mem_nil toty)

/-- C6 counterexample to the post-substitution reading: a retained
top-type directive (require a ConceptNode) is checked before the
replacement-map rewrite, so the returned container — the variable the
grounding was rewritten back to — fails the directive's
type-membership check. -/
theorem C6_counterexample :
    container jlC6 storeC6 oracleC6 = .ok [vX] ∧
    totyC6 ∈ jlC6.top_types ∧
    value_is_type totyC6 vX = false := by decide

/-- C6 witness: on the concrete spec, stripping the directive yields a
superset and the pre-substitution container passes every directive. -/
theorem C6_witness :
    (∃ S2, container (stripTopTypes jlC6) storeC6 oracleC6 = .ok S2 ∧
      ∀ x ∈ ([vX] : HandleSet), x ∈ S2) ∧
    ∃ ctn trav, container_pre jlC6 storeC6 oracleC6 = .ok (ctn, trav) ∧
      ([vX] : HandleSet) = replace ctn trav ∧
      ∀ x ∈ ctn, ∀ toty ∈ jlC6.top_types, value_is_type toty x = true :=
  C6_strip_monotone jlC6 storeC6 oracleC6 [vX] (by decide)
